import Mathlib

/-!
Verification of the algorithmic core of the SANS split-inference engine
(repository `zwets/sans`).  The repository ships `src/graph.h`, the
declaration of the `graph` class: its static tables
(`kmer_table : unordered_map<kmer_t, color_t>`,
`color_table : unordered_map<color_t, array<uint32_t,2>>`,
`split_list : multimap<double, color_t, greater<>>`, bound `t`) and the
operations `init`, `add_kmers`, `add_weights`, `add_split`,
`filter_strict`, `filter_weakly`, `filter_n_tree`, `test_strict`,
`test_weakly`, `iupac_calc`, `iupac_shift`, `build_tree`, `refine_tree`.
The bodies live in `graph.cpp`, which is not part of the provided
sources, so every operation below is modelled from the specification
and checked against the declared types of `graph.h`.

Modelling conventions:
* a color-set (`color_t`, one bit per taxon) is a `Finset (Fin n)`;
* a k-mer key (`kmer_t`, 2 bits per base) is its numeric encoding `ℕ`;
* C++ `double` split weights are modelled as `ℚ`;
* the `uint32_t` occurrence counters of `color_table` are naturals
  reduced modulo `2 ^ 32` at each increment;
* the unordered hash tables are association lists; the ordered
  `multimap` is a list kept sorted by weight, descending, new entries
  placed after existing entries of equal weight (the C++11 guarantee
  for `multimap::insert`).
-/

namespace Sans

/-- A color-set: one bit per taxon, here the set of taxa whose bit is set
(`color_t` of `graph.h`). -/
abbrev color_t (n : ℕ) := Finset (Fin n)

variable {n : ℕ}

/-- Modelled from the spec: the `graph` class state of `graph.h` — the
k-mer index, the weight accumulator, the split list and the top-list
bound `t` (the bodies of `graph.cpp` are not in the sources). -/
structure graph (n : ℕ) where
  kmer_table : List (ℕ × color_t n)
  color_table : List (color_t n × ℕ × ℕ)
  split_list : List (ℚ × color_t n)
  t : ℕ

/-- The empty engine state. -/
def emptyGraph (n : ℕ) : graph n := ⟨[], [], [], 0⟩

/-- Modelled from the spec: `graph::init` (body in `graph.cpp`, not in the
sources) stores the configured top-list size `t`. -/
def init (top_size : ℕ) (g : graph n) : graph n := { g with t := top_size }

/-- Modelled from the spec: one `multimap<double, color_t, greater<>>`
insertion — the pair is placed before the first entry of strictly
smaller weight, i.e. after all entries of greater or equal weight
(stable for ties). -/
def insert_desc (p : ℚ × color_t n) : List (ℚ × color_t n) → List (ℚ × color_t n)
  | [] => [p]
  | q :: rest => if q.1 < p.1 then p :: q :: rest else q :: insert_desc p rest

/-- Modelled from the spec: the split-list part of `graph::add_split`
(body in `graph.cpp`, not in the sources): insert, then if a bound `t`
is configured and exceeded, evict the lowest-weight (last) entry. -/
def addSplitL (t : ℕ) (p : ℚ × color_t n) (l : List (ℚ × color_t n)) :
    List (ℚ × color_t n) :=
  let l2 := insert_desc p l
  if t ≠ 0 ∧ t < l2.length then l2.dropLast else l2

/-- Modelled from the spec: `graph::add_split` adds one (weight, split)
pair to the bounded split list; no other field is touched. -/
def add_split (w : ℚ) (c : color_t n) (g : graph n) : graph n :=
  { g with split_list := addSplitL g.t (w, c) g.split_list }

/-- The split list obtained by configuring bound `t` on an empty state
and inserting `pairs` in order via `add_split`. -/
def run_adds (t : ℕ) (pairs : List (ℚ × color_t n)) : List (ℚ × color_t n) :=
  (pairs.foldl (fun g p => add_split p.1 p.2 g) (init t (emptyGraph n))).split_list

/-- Weight-descending order on split-list entries. -/
def wge (a b : ℚ × color_t n) : Prop := b.1 ≤ a.1

/-- Modelled from the spec: the pairwise four-intersection
tree-compatibility test on two splits — compatible iff at least one of
`A∩B`, `A∩¬B`, `¬A∩B`, `¬A∩¬B` is empty. -/
def compat (a b : color_t n) : Bool :=
  decide (a ∩ b = ∅) || decide (a ∩ bᶜ = ∅) ||
    decide (aᶜ ∩ b = ∅) || decide (aᶜ ∩ bᶜ = ∅)

/-- Modelled from the spec: `graph::test_strict` (body in `graph.cpp`,
not in the sources) — a new split is strictly compatible with a set iff
it passes the four-intersection test against every member. -/
def test_strict (color : color_t n) (color_set : List (color_t n)) : Bool :=
  color_set.all (fun elem => compat color elem)

/-- Modelled from the spec: `graph::filter_strict` — greedily draw the
candidates of the split list in order, accept a split iff `test_strict`
holds against the previously accepted set. -/
def filter_strict (l : List (ℚ × color_t n)) : List (color_t n) :=
  l.foldl (fun acc p => if test_strict p.2 acc then acc ++ [p.2] else acc) []

/-- Modelled from the spec: the standard weak-compatibility condition on
three splits — in each of the two orientation classes of the eight
signed triple intersections, at least one intersection is empty. -/
def weakTriple (a b c : color_t n) : Bool :=
  (decide (a ∩ b ∩ c = ∅) || decide (a ∩ bᶜ ∩ cᶜ = ∅) ||
      decide (aᶜ ∩ b ∩ cᶜ = ∅) || decide (aᶜ ∩ bᶜ ∩ c = ∅)) &&
    (decide (aᶜ ∩ bᶜ ∩ cᶜ = ∅) || decide (aᶜ ∩ b ∩ c = ∅) ||
      decide (a ∩ bᶜ ∩ c = ∅) || decide (a ∩ b ∩ cᶜ = ∅))

/-- Modelled from the spec: `graph::test_weakly` (body in `graph.cpp`,
not in the sources) — a new split is weakly compatible with a set iff
the triple condition holds against every pair of distinct members. -/
def test_weakly (color : color_t n) (color_set : List (color_t n)) : Bool :=
  color_set.all fun e1 => color_set.all fun e2 =>
    if e1 = e2 then true else weakTriple color e1 e2

/-- Modelled from the spec: `graph::filter_strict`, keeping the accepted
(weight, split) pairs. -/
def filter_strict_w (l : List (ℚ × color_t n)) : List (ℚ × color_t n) :=
  l.foldl (fun acc p => if test_strict p.2 (acc.map Prod.snd) then acc ++ [p] else acc) []

/-- Modelled from the spec: `graph::filter_weakly`, keeping the accepted
(weight, split) pairs. -/
def filter_weakly_w (l : List (ℚ × color_t n)) : List (ℚ × color_t n) :=
  l.foldl (fun acc p => if test_weakly p.2 (acc.map Prod.snd) then acc ++ [p] else acc) []

/-- Modelled from the spec: one step of `graph::filter_n_tree` — place a
candidate in the first of the accepted sets it is strictly compatible
with, or discard it. -/
def n_insert (p : ℚ × color_t n) :
    List (List (ℚ × color_t n)) → List (List (ℚ × color_t n))
  | [] => []
  | s :: rest =>
    if test_strict p.2 (s.map Prod.snd) then (s ++ [p]) :: rest
    else s :: n_insert p rest

/-- Modelled from the spec: `graph::filter_n_tree` — maintain `m`
independent strictly compatible accepted sets, first-fit greedy over
the candidates in split-list order. -/
def filter_n_tree (m : ℕ) (l : List (ℚ × color_t n)) : List (List (ℚ × color_t n)) :=
  l.foldl (fun sets p => n_insert p sets) (List.replicate m [])

/-- One increment of a `uint32_t` occurrence counter of `color_table`
(`array<uint32_t,2>` in `graph.h`): the value wraps modulo `2 ^ 32`. -/
def bump32 (x : ℕ) : ℕ := (x + 1) % 2 ^ 32

/-- Modelled from the spec: the canonical representative of a split —
of a color-set and its complement, the one not containing taxon 0. -/
def canonSplit (c : color_t n) : color_t n :=
  if h : 0 < n then (if (⟨0, h⟩ : Fin n) ∈ c then cᶜ else c) else c

/-- Modelled from the spec: one `color_table` update of
`graph::add_weights` (body in `graph.cpp`, not in the sources) — bump
the counter of the canonical representative selected by which of the
color-set and its complement is canonical. -/
def ctIncr (c : color_t n) (ct : List (color_t n × ℕ × ℕ)) :
    List (color_t n × ℕ × ℕ) :=
  let rep := canonSplit c
  if ct.any (fun e => decide (e.1 = rep)) then
    ct.map (fun e => if e.1 = rep then
      (e.1, if rep = c then (bump32 e.2.1, e.2.2) else (e.2.1, bump32 e.2.2)) else e)
  else ct ++ [(rep, if rep = c then (1, 0) else (0, 1))]

/-- Modelled from the spec: the scan phase of `graph::add_weights` —
every k-mer index entry is visited once; entries whose color-set is
empty or full are skipped, the others bump a counter of their canonical
split. -/
def accumulate (tab : List (ℕ × color_t n)) (ct : List (color_t n × ℕ × ℕ)) :
    List (color_t n × ℕ × ℕ) :=
  tab.foldl (fun ct e =>
    if e.2 = ∅ ∨ e.2 = Finset.univ then ct else ctIncr e.2 ct) ct

/-- Modelled from the spec: `graph::add_weights` — drain the k-mer index
into the weight accumulator, clear the index, then apply the weight
function to each counter pair and insert the split via `add_split`;
the accumulator is destroyed afterwards. -/
def add_weights (mean : ℕ → ℕ → ℚ) (g : graph n) : graph n :=
  let ct := accumulate g.kmer_table g.color_table
  ct.foldl (fun s e => add_split (mean e.2.1 e.2.2) e.1 s)
    { g with kmer_table := [], color_table := [] }

/-- A concrete weight function for witnesses: the sum of the counters. -/
def meanSum (a b : ℕ) : ℚ := ((a + b : ℕ) : ℚ)

/-- A concrete engine state over two taxa whose k-mer index holds an
empty color-set, a full color-set and the proper color-set `{0}`. -/
def gW : graph 2 := ⟨[(0, ∅), (1, Finset.univ), (2, {0})], [], [], 0⟩

/-- An unambiguous DNA base. -/
inductive Base where
  | A | C | G | T
deriving DecidableEq

/-- The complementary base. -/
def base_comp : Base → Base
  | Base.A => Base.T
  | Base.C => Base.G
  | Base.G => Base.C
  | Base.T => Base.A

/-- The reverse complement of a sequence. -/
def revComp (s : List Base) : List Base := s.reverse.map base_comp

/-- The 2-bit encoding of a base (`kmer_t` packing). -/
def encB : Base → ℕ
  | Base.A => 0
  | Base.C => 1
  | Base.G => 2
  | Base.T => 3

/-- The packed numeric `kmer_t` encoding of a k-mer. -/
def enc (w : List Base) : ℕ := w.foldl (fun a b => 4 * a + encB b) 0

/-- Modelled from the spec: the canonical key of a k-mer — when
reverse-complement merging is on, the smaller of the encodings of the
k-mer and of its reverse complement; otherwise the k-mer itself. -/
def canon (rev : Bool) (w : List Base) : ℕ :=
  if rev then min (enc w) (enc (revComp w)) else enc w

/-- All length-`k` windows of a sequence, left to right. -/
def windows {α : Type} (k : ℕ) (s : List α) : List (List α) :=
  (List.range (s.length + 1 - k)).map (fun i => (s.drop i).take k)

/-- Modelled from the spec: one k-mer index update — OR the color bit
into the entry of the key, inserting the entry if absent. -/
def tinsert (key : ℕ) (c : Fin n) (tab : List (ℕ × color_t n)) :
    List (ℕ × color_t n) :=
  if tab.any (fun e => decide (e.1 = key)) then
    tab.map (fun e => if e.1 = key then (e.1, insert c e.2) else e)
  else tab ++ [(key, {c})]

/-- Modelled from the spec: `graph::add_kmers` (body in `graph.cpp`, not
in the sources) — slide a window of length `k` over the sequence and
index each window under its canonical key with the source color. -/
def add_kmers (k : ℕ) (s : List Base) (c : Fin n) (rev : Bool) (g : graph n) : graph n :=
  { g with kmer_table :=
      (windows k s).foldl (fun tab w => tinsert (canon rev w) c tab) g.kmer_table }

/-- The key set of a k-mer table. -/
def tkeys (tab : List (ℕ × color_t n)) : Finset ℕ := (tab.map Prod.fst).toFinset

/-- The canonical key set contributed by sequence `s`. -/
def kset (rev : Bool) (k : ℕ) (s : List Base) : Finset ℕ :=
  ((windows k s).map (canon rev)).toFinset

/-- An IUPAC symbol: an unambiguous base or an ambiguity code. -/
inductive IBase where
  | A | C | G | T | R | Y | S | W | K | M | B | D | H | V | N
deriving DecidableEq

/-- The concrete bases an IUPAC symbol stands for. -/
def iupac : IBase → List Base
  | IBase.A => [Base.A]
  | IBase.C => [Base.C]
  | IBase.G => [Base.G]
  | IBase.T => [Base.T]
  | IBase.R => [Base.A, Base.G]
  | IBase.Y => [Base.C, Base.T]
  | IBase.S => [Base.C, Base.G]
  | IBase.W => [Base.A, Base.T]
  | IBase.K => [Base.G, Base.T]
  | IBase.M => [Base.A, Base.C]
  | IBase.B => [Base.C, Base.G, Base.T]
  | IBase.D => [Base.A, Base.G, Base.T]
  | IBase.H => [Base.A, Base.C, Base.T]
  | IBase.V => [Base.A, Base.C, Base.G]
  | IBase.N => [Base.A, Base.C, Base.G, Base.T]

/-- Modelled from the spec: `graph::iupac_calc` (body in `graph.cpp`,
not in the sources) — the multiplicity of a window is the product of
the per-base expansion factors. -/
def iupac_calc (w : List IBase) : ℕ := (w.map (fun x => (iupac x).length)).prod

/-- Modelled from the spec: the set of concrete k-mers an ambiguous
window stands for, as produced by iterating `graph::iupac_shift`
one position at a time. -/
def iupac_expand : List IBase → List (List Base)
  | [] => [[]]
  | x :: rest => (iupac x).flatMap (fun b => (iupac_expand rest).map (b :: ·))

/-- Whether a symbol is ambiguous (stands for more than one base). -/
def isAmbig (x : IBase) : Bool := decide (2 ≤ (iupac x).length)

/-- Modelled from the spec: processing of one window by the IUPAC-capable
overload of `graph::add_kmers` — an unambiguous window is indexed
directly; a window containing ambiguity codes is expanded and indexed
only if its multiplicity is within the configured cap, and skipped
otherwise. -/
def iupac_step (c : Fin n) (rev : Bool) (cap : ℕ)
    (tab : List (ℕ × color_t n)) (w : List IBase) : List (ℕ × color_t n) :=
  if w.any isAmbig then
    if iupac_calc w ≤ cap then
      (iupac_expand w).foldl (fun tb u => tinsert (canon rev u) c tb) tab
    else tab
  else (iupac_expand w).foldl (fun tb u => tinsert (canon rev u) c tb) tab

/-- Modelled from the spec: the IUPAC-capable overload of
`graph::add_kmers` (body in `graph.cpp`, not in the sources) — slide a
window of length `k` over the sequence and process each window with
`iupac_step`. -/
def add_kmers_iupac (k : ℕ) (s : List IBase) (c : Fin n) (rev : Bool) (cap : ℕ)
    (g : graph n) : graph n :=
  { g with kmer_table := (windows k s).foldl (iupac_step c rev cap) g.kmer_table }

/-- Union of a list of key sets. -/
def iunion (l : List (Finset ℕ)) : Finset ℕ := l.foldr (fun a b => a ∪ b) ∅

/-- The `set` tree node of `graph.h`: the taxa beneath the node, the
weight of the split that created it, and the exclusively owned child
subsets. -/
inductive set (n : ℕ) where
  | node (taxa : color_t n) (weight : ℚ) (subsets : List (set n))

/-- The taxa beneath a node. -/
def taxa : set n → color_t n
  | set.node tx _ _ => tx

/-- The union of the taxa of a list of nodes. -/
def childUnion (cs : List (set n)) : color_t n :=
  (cs.map taxa).foldr (fun a b => a ∪ b) ∅

/-- The partition invariant of the tree: at every internal node the
children's taxa are pairwise disjoint and their union is the node's
taxa. -/
inductive partOK : set n → Prop where
  | leaf (tx : color_t n) (w : ℚ) : partOK (set.node tx w [])
  | internal (tx : color_t n) (w : ℚ) (cs : List (set n)) (hne : cs ≠ [])
      (hu : childUnion cs = tx)
      (hd : (cs.map taxa).Pairwise fun a b => a ∩ b = ∅)
      (hall : ∀ c ∈ cs, partOK c) : partOK (set.node tx w cs)

mutual

/-- The set of leaf taxa of a tree. -/
def leafTaxa : set n → color_t n
  | set.node tx _ [] => tx
  | set.node _ _ (c :: cs) => leafUnion (c :: cs)

/-- The union of the leaf taxa of a list of nodes. -/
def leafUnion : List (set n) → color_t n
  | [] => ∅
  | c :: rest => leafTaxa c ∪ leafUnion rest

end

mutual

/-- Modelled from the spec: `graph::refine_tree` (body in `graph.cpp`,
not in the sources) — if the split lies strictly inside one child,
recurse into it; if some child straddles the split boundary, the split
is incompatible here and the tree is left unchanged (defensive check);
otherwise, if at least two but not all children fall inside the split,
group them under a new intermediate child whose taxa is the union of
the grouped children's taxa. -/
def refine_tree (sp : color_t n) : set n → set n
  | set.node tx w cs =>
    if cs.any (fun c => decide (sp ⊂ taxa c)) then
      set.node tx w (refineList sp cs)
    else if cs.any (fun c => decide ((taxa c ∩ sp).Nonempty ∧
        ¬ taxa c ⊆ sp ∧ ¬ sp ⊆ taxa c)) then
      set.node tx w cs
    else
      if 2 ≤ (cs.filter (fun c => decide (taxa c ⊆ sp))).length ∧
          (cs.filter (fun c => decide (taxa c ⊆ sp))).length < cs.length then
        set.node tx w
          (set.node (childUnion (cs.filter (fun c => decide (taxa c ⊆ sp)))) 0
            (cs.filter (fun c => decide (taxa c ⊆ sp))) ::
          cs.filter (fun c => !decide (taxa c ⊆ sp)))
      else set.node tx w cs

/-- Recurse into every child strictly containing the split. -/
def refineList (sp : color_t n) : List (set n) → List (set n)
  | [] => []
  | c :: rest =>
    (if sp ⊂ taxa c then refine_tree sp c else c) :: refineList sp rest

end

/-- Modelled from the spec: `graph::build_tree` (body in `graph.cpp`,
not in the sources) — start from a root holding the full taxon set with
one leaf child per taxon and refine it once per split, in the order the
splits were accepted. -/
def build_tree (color_set : List (color_t n)) : set n :=
  color_set.foldl (fun t sp => refine_tree sp t)
    (set.node Finset.univ 0 ((List.finRange n).map (fun i => set.node {i} 0 [])))

theorem add_split_t (w : ℚ) (c : color_t n) (g : graph n) :
    (add_split w c g).t = g.t := rfl

theorem foldl_add_split (pairs : List (ℚ × color_t n)) (g : graph n) :
    (pairs.foldl (fun g p => add_split p.1 p.2 g) g).split_list =
      pairs.foldl (fun l p => addSplitL g.t p l) g.split_list := by
  induction pairs generalizing g with
  | nil => rfl
  | cons p rest ih => simpa [add_split] using ih (add_split p.1 p.2 g)

theorem run_adds_eq (t : ℕ) (pairs : List (ℚ × color_t n)) :
    run_adds t pairs = pairs.foldl (fun l p => addSplitL t p l) [] := by
  simpa [run_adds, init, emptyGraph] using
    foldl_add_split pairs (init t (emptyGraph n))

theorem insert_desc_perm (p : ℚ × color_t n) (l : List (ℚ × color_t n)) :
    (insert_desc p l).Perm (p :: l) := by
  induction l with
  | nil => simp [insert_desc]
  | cons q rest ih =>
    by_cases h : q.1 < p.1
    · simp [insert_desc, h]
    · simp only [insert_desc, if_neg h]
      exact ((ih.cons q).trans (List.Perm.swap p q rest))

theorem insert_desc_length (p : ℚ × color_t n) (l : List (ℚ × color_t n)) :
    (insert_desc p l).length = l.length + 1 :=
  (insert_desc_perm p l).length_eq

theorem insert_desc_sorted (p : ℚ × color_t n) (l : List (ℚ × color_t n))
    (h : l.Sorted wge) : (insert_desc p l).Sorted wge := by
  induction l with
  | nil => simp [insert_desc, List.Sorted]
  | cons q rest ih =>
    rcases List.sorted_cons.mp h with ⟨hq, hrest⟩
    by_cases hlt : q.1 < p.1
    · simp only [insert_desc, if_pos hlt]
      refine List.sorted_cons.mpr ⟨?_, h⟩
      intro b hb
      rcases List.mem_cons.mp hb with rfl | hb
      · exact le_of_lt hlt
      · exact le_trans (hq b hb) (le_of_lt hlt)
    · simp only [insert_desc, if_neg hlt]
      refine List.sorted_cons.mpr ⟨?_, ih hrest⟩
      intro b hb
      rcases List.mem_cons.mp (((insert_desc_perm p rest).mem_iff).mp hb) with h1 | h1
      · rw [h1]; exact le_of_not_lt hlt
      · exact hq b h1

theorem insert_desc_take (p : ℚ × color_t n) (l : List (ℚ × color_t n)) (t : ℕ) :
    (insert_desc p (l.take t)).take t = (insert_desc p l).take t := by
  induction l generalizing t with
  | nil => simp
  | cons q rest ih =>
    cases t with
    | zero => simp
    | succ t =>
      by_cases h : q.1 < p.1
      · cases t with
        | zero => simp [insert_desc, h]
        | succ t => simp [insert_desc, h, List.take_take]
      · simp [insert_desc, h, ih t]

theorem addSplitL_eq (t : ℕ) (p : ℚ × color_t n) (l : List (ℚ × color_t n)) :
    addSplitL t p l =
      if t ≠ 0 ∧ t < (insert_desc p l).length then (insert_desc p l).dropLast
      else insert_desc p l := rfl

theorem addSplitL_zero (p : ℚ × color_t n) (l : List (ℚ × color_t n)) :
    addSplitL 0 p l = insert_desc p l := by
  simp [addSplitL]

theorem run_adds_zero_perm (pairs : List (ℚ × color_t n)) :
    (run_adds 0 pairs).Perm pairs := by
  rw [run_adds_eq]
  suffices h : ∀ l : List (ℚ × color_t n),
      (pairs.foldl (fun l p => addSplitL 0 p l) l).Perm (pairs.reverse ++ l) by
    simpa using (h []).trans (by simp [List.reverse_perm])
  induction pairs with
  | nil => intro l; simp
  | cons p rest ih =>
    intro l
    refine (ih (addSplitL 0 p l)).trans ?_
    have h1 : (addSplitL 0 p l).Perm (p :: l) := by
      simpa [addSplitL_zero] using insert_desc_perm p l
    have h2 : (rest.reverse ++ addSplitL 0 p l).Perm (rest.reverse ++ (p :: l)) :=
      List.Perm.append_left _ h1
    have h3 : (p :: rest).reverse ++ l = rest.reverse ++ (p :: l) := by simp
    rw [h3]; exact h2

theorem run_adds_zero_sorted (pairs : List (ℚ × color_t n)) :
    (run_adds 0 pairs).Sorted wge := by
  rw [run_adds_eq]
  suffices h : ∀ l : List (ℚ × color_t n), l.Sorted wge →
      (pairs.foldl (fun l p => addSplitL 0 p l) l).Sorted wge by
    exact h [] (by simp)
  induction pairs with
  | nil => intro l hl; simpa using hl
  | cons p rest ih =>
    intro l hl
    exact ih _ (by simpa [addSplitL_zero] using insert_desc_sorted p l hl)

theorem run_adds_succ_take (t : ℕ) (pairs : List (ℚ × color_t n)) :
    run_adds (t + 1) pairs = (run_adds 0 pairs).take (t + 1) := by
  rw [run_adds_eq, run_adds_eq]
  suffices h : ∀ l : List (ℚ × color_t n),
      pairs.foldl (fun l p => addSplitL (t + 1) p l) (l.take (t + 1)) =
        (pairs.foldl (fun l p => addSplitL 0 p l) l).take (t + 1) by
    simpa using h []
  induction pairs with
  | nil => intro l; simp
  | cons p rest ih =>
    intro l
    have hstep : addSplitL (t + 1) p (l.take (t + 1)) =
        (insert_desc p l).take (t + 1) := by
      rw [addSplitL_eq]
      by_cases hlen : t + 1 < (insert_desc p (l.take (t + 1))).length
      · have hlen2 : (insert_desc p (l.take (t + 1))).length = t + 2 := by
          have h1 := insert_desc_length p (l.take (t + 1))
          have h2 : (l.take (t + 1)).length ≤ t + 1 := by
            simp [List.length_take]
          omega
        rw [if_pos ⟨Nat.succ_ne_zero t, hlen⟩]
        rw [List.dropLast_eq_take, hlen2]
        simpa using insert_desc_take p l (t + 1)
      · have h1 := insert_desc_length p (l.take (t + 1))
        have h2 : l.length ≤ t := by
          by_contra hcon
          have h5 : (l.take (t + 1)).length = t + 1 := by
            simp only [List.length_take]; omega
          omega
        rw [if_neg (fun hc => hlen hc.2)]
        have h3 : l.take (t + 1) = l := List.take_of_length_le (by omega)
        rw [h3]
        have h4 : (insert_desc p l).length ≤ t + 1 := by
          rw [insert_desc_length]; omega
        exact (List.take_of_length_le h4).symm
    simp only [List.foldl_cons]
    rw [hstep, addSplitL_zero p l, ih (insert_desc p l)]

theorem compat_comm (a b : color_t n) : compat a b = compat b a := by
  rw [Bool.eq_iff_iff]
  simp only [compat, Bool.or_eq_true, decide_eq_true_eq]
  rw [Finset.inter_comm b a, Finset.inter_comm b aᶜ,
    Finset.inter_comm bᶜ a, Finset.inter_comm bᶜ aᶜ]
  tauto

theorem filter_strict_invariant (l : List (ℚ × color_t n))
    (acc : List (color_t n)) (hacc : acc.Pairwise (fun a b => compat a b = true)) :
    (l.foldl (fun acc p => if test_strict p.2 acc then acc ++ [p.2] else acc) acc).Pairwise
      (fun a b => compat a b = true) := by
  induction l generalizing acc with
  | nil => simpa using hacc
  | cons p rest ih =>
    simp only [List.foldl_cons]
    by_cases h : test_strict p.2 acc = true
    · rw [if_pos h]
      refine ih _ ?_
      rw [List.pairwise_append]
      refine ⟨hacc, by simp, ?_⟩
      intro a ha b hb
      rw [List.mem_singleton.mp hb]
      have h2 := (List.all_eq_true.mp h) a ha
      rw [compat_comm]
      simpa using h2
    · rw [if_neg h]; exact ih _ hacc

/-- C1: the strict filter accepts a candidate exactly when it passes the
four-intersection test (`test_strict`) against the previously accepted
set — appending one more candidate extends the accepted set iff the
test passes, so every rejected split failed the test against the set
accepted at the time — and the final accepted set is pairwise
compatible. -/
theorem filter_strict_correct (splits : List (ℚ × color_t n)) (w : ℚ) (c : color_t n) :
    filter_strict (splits ++ [(w, c)]) =
      (if test_strict c (filter_strict splits) = true
        then filter_strict splits ++ [c] else filter_strict splits)
    ∧ (filter_strict splits).Pairwise (fun a b => compat a b = true) := by
  constructor
  · rw [filter_strict, List.foldl_append]
    simp [filter_strict]
  · exact filter_strict_invariant splits [] (by simp)

/-- C8: a split that passes the strict pairwise test against an accepted
set also passes the weak triple test against it — the strict filter
never accepts a split the weak test would reject, so strictly
compatible sets are weakly compatible. -/
theorem strict_implies_weakly (color : color_t n) (color_set : List (color_t n))
    (h : test_strict color color_set = true) :
    test_weakly color color_set = true := by
  simp only [test_weakly, List.all_eq_true]
  intro e1 he1 e2 he2
  by_cases heq : e1 = e2
  · simp [heq]
  · rw [if_neg heq]
    have h1 : compat color e1 = true := (List.all_eq_true.mp h) e1 he1
    simp only [compat, Bool.or_eq_true, decide_eq_true_eq] at h1
    simp only [weakTriple, Bool.and_eq_true, Bool.or_eq_true, decide_eq_true_eq]
    have hsub : ∀ x y : color_t n, x ∩ y = ∅ →
        ∀ z : color_t n, x ∩ y ∩ z = ∅ := by
      intro x y hxy z
      rw [hxy]
      exact Finset.empty_inter z
    rcases h1 with ((h1 | h1) | h1) | h1 <;>
      exact ⟨by have f1 := hsub _ _ h1 e2; have f2 := hsub _ _ h1 e2ᶜ; tauto,
        by have f1 := hsub _ _ h1 e2; have f2 := hsub _ _ h1 e2ᶜ; tauto⟩

/-- Witness for C8 at a concrete input: the split `{0}` over three taxa
is strictly compatible with the accepted set `[{1}]`, and the theorem
yields weak compatibility there. -/
theorem strict_implies_weakly_witness :
    test_strict ({0} : color_t 3) [{1}] = true ∧
      test_weakly ({0} : color_t 3) [{1}] = true :=
  ⟨by decide, strict_implies_weakly ({0} : color_t 3) [{1}] (by decide)⟩

theorem foldl_accept_sublist (l : List (ℚ × color_t n))
    (test : List (ℚ × color_t n) → (ℚ × color_t n) → Bool)
    (acc l0 : List (ℚ × color_t n)) (hacc : acc.Sublist l0) :
    (l.foldl (fun acc p => if test acc p then acc ++ [p] else acc) acc).Sublist (l0 ++ l) := by
  induction l generalizing acc l0 with
  | nil => simpa using hacc
  | cons p rest ih =>
    simp only [List.foldl_cons]
    have hmain : ∀ acc2 : List (ℚ × color_t n), acc2.Sublist (l0 ++ [p]) →
        (rest.foldl (fun acc p => if test acc p then acc ++ [p] else acc) acc2).Sublist
          (l0 ++ p :: rest) := by
      intro acc2 h2
      have := ih acc2 (l0 ++ [p]) h2
      simpa using this
    by_cases h : test acc p = true
    · rw [if_pos h]
      exact hmain _ (List.Sublist.append hacc (List.Sublist.refl [p]))
    · rw [if_neg h]
      exact hmain _ (hacc.trans (List.sublist_append_left l0 [p]))

theorem filter_strict_w_sublist (l : List (ℚ × color_t n)) :
    (filter_strict_w l).Sublist l := by
  simpa using foldl_accept_sublist l (fun acc p => test_strict p.2 (acc.map Prod.snd)) [] [] (by simp)

theorem filter_weakly_w_sublist (l : List (ℚ × color_t n)) :
    (filter_weakly_w l).Sublist l := by
  simpa using foldl_accept_sublist l (fun acc p => test_weakly p.2 (acc.map Prod.snd)) [] [] (by simp)

theorem n_insert_sublist (p : ℚ × color_t n) (sets : List (List (ℚ × color_t n)))
    (l0 : List (ℚ × color_t n)) (h : ∀ s ∈ sets, s.Sublist l0) :
    ∀ s ∈ n_insert p sets, s.Sublist (l0 ++ [p]) := by
  induction sets with
  | nil => intro s hs; simp [n_insert] at hs
  | cons s0 rest ih =>
    intro s hs
    simp only [n_insert] at hs
    by_cases hc : test_strict p.2 (s0.map Prod.snd) = true
    · rw [if_pos hc] at hs
      rcases List.mem_cons.mp hs with rfl | hs
      · exact List.Sublist.append (h s0 (by simp)) (List.Sublist.refl [p])
      · exact ((h s (List.mem_cons_of_mem _ hs)).trans (List.sublist_append_left l0 [p]))
    · rw [if_neg hc] at hs
      rcases List.mem_cons.mp hs with rfl | hs
      · exact (h s (by simp)).trans (List.sublist_append_left l0 [p])
      · exact ih (fun s2 hs2 => h s2 (List.mem_cons_of_mem _ hs2)) s hs

theorem filter_n_tree_sublist (m : ℕ) (l : List (ℚ × color_t n)) :
    ∀ s ∈ filter_n_tree m l, s.Sublist l := by
  rw [filter_n_tree]
  suffices h : ∀ sets l0, (∀ s ∈ sets, s.Sublist l0) →
      ∀ s ∈ l.foldl (fun sets p => n_insert p sets) sets, s.Sublist (l0 ++ l) by
    have h2 := h (List.replicate m []) []
      (by intro s hs; simp [List.eq_of_mem_replicate hs])
    simpa using h2
  induction l with
  | nil => intro sets l0 h s hs; simpa using h s hs
  | cons p rest ih =>
    intro sets l0 h s hs
    simp only [List.foldl_cons] at hs
    have h2 := ih (n_insert p sets) (l0 ++ [p]) (n_insert_sublist p sets l0 h) s hs
    simpa using h2

/-- C9: the candidates are drawn from the split list, which `add_split`
keeps sorted in weight-descending order, and each filter scans it front
to back: every accepted set — of `filter_strict_w`, of
`filter_weakly_w`, and each of the `m` sets of `filter_n_tree` — is a
sublist of the candidate list, hence itself weight-descending when run
on any `run_adds` state; the filters are pure functions of the split
list, so two runs on the same contents give the same accepted sets in
the same order. -/
theorem filters_visit_descending (t m : ℕ) (pairs l : List (ℚ × color_t n)) :
    (run_adds t pairs).Sorted wge
    ∧ (filter_strict_w l).Sublist l
    ∧ (filter_weakly_w l).Sublist l
    ∧ (∀ s ∈ filter_n_tree m l, s.Sublist l)
    ∧ (filter_strict_w (run_adds t pairs)).Sorted wge
    ∧ (filter_weakly_w (run_adds t pairs)).Sorted wge
    ∧ (∀ s ∈ filter_n_tree m (run_adds t pairs), s.Sorted wge) := by
  have hsorted : (run_adds t pairs).Sorted wge := by
    cases t with
    | zero => exact run_adds_zero_sorted pairs
    | succ t =>
      rw [run_adds_succ_take]
      exact (run_adds_zero_sorted pairs).sublist (List.take_sublist _ _)
  refine ⟨hsorted, filter_strict_w_sublist l, filter_weakly_w_sublist l,
    filter_n_tree_sublist m l, ?_, ?_, ?_⟩
  · exact hsorted.sublist (filter_strict_w_sublist _)
  · exact hsorted.sublist (filter_weakly_w_sublist _)
  · intro s hs
    exact hsorted.sublist (filter_n_tree_sublist m _ s hs)

/-- Witness for C9 at a concrete input: instantiating the theorem at a
two-candidate list discharges its membership hypotheses and yields a
concrete sorted accepted set of `filter_n_tree`. -/
theorem filters_visit_descending_witness :
    List.Sorted wge (filter_strict_w (run_adds 0 [((5 : ℚ), ({0} : color_t 3)), (3, {1})])) ∧
      ([((5 : ℚ), ({0} : color_t 3)), (3, {1})] : List (ℚ × color_t 3)).Sublist
        [((5 : ℚ), ({0} : color_t 3)), (3, {1})] := by
  have h := filters_visit_descending 0 2 [((5 : ℚ), ({0} : color_t 3)), (3, {1})]
    [((5 : ℚ), ({0} : color_t 3)), (3, {1})]
  refine ⟨h.2.2.2.2.1, ?_⟩
  have h2 := h.2.2.2.1 [((5 : ℚ), ({0} : color_t 3)), (3, {1})] (by decide)
  exact h2

/-- C2: with a configured bound `t + 1 > 0` set via `init`, the split
list after any sequence of `add_split` calls is exactly the
`t + 1`-prefix of the fully sorted (weight-descending, stable) list of
all pairs seen so far: it never exceeds the bound, reaches exactly the
bound once enough pairs were seen, and holds the top-weight pairs, the
lowest-weight entry being the one evicted. -/
theorem add_split_top_list (t : ℕ) (pairs : List (ℚ × color_t n)) :
    run_adds (t + 1) pairs = (run_adds 0 pairs).take (t + 1)
    ∧ (run_adds 0 pairs).Perm pairs
    ∧ (run_adds 0 pairs).Sorted wge
    ∧ (run_adds (t + 1) pairs).length = min pairs.length (t + 1) := by
  refine ⟨run_adds_succ_take t pairs, run_adds_zero_perm pairs,
    run_adds_zero_sorted pairs, ?_⟩
  rw [run_adds_succ_take t pairs]
  rw [List.length_take, (run_adds_zero_perm pairs).length_eq, Nat.min_comm]

theorem foldl_add_split_frame (ct : List (color_t n × ℕ × ℕ))
    (mean : ℕ → ℕ → ℚ) (g : graph n) :
    (ct.foldl (fun s e => add_split (mean e.2.1 e.2.2) e.1 s) g).kmer_table = g.kmer_table
    ∧ (ct.foldl (fun s e => add_split (mean e.2.1 e.2.2) e.1 s) g).color_table = g.color_table
    ∧ (ct.foldl (fun s e => add_split (mean e.2.1 e.2.2) e.1 s) g).t = g.t := by
  induction ct generalizing g with
  | nil => exact ⟨rfl, rfl, rfl⟩
  | cons e rest ih =>
    simpa [add_split] using ih (add_split (mean e.2.1 e.2.2) e.1 g)

/-- C7: `add_weights` consumes the k-mer index and clears it — after any
call the `kmer_table` is empty (and the drained accumulator is
destroyed as well), while the configured bound `t` is untouched. -/
theorem add_weights_clears (mean : ℕ → ℕ → ℚ) (g : graph n) :
    (add_weights mean g).kmer_table = []
    ∧ (add_weights mean g).color_table = []
    ∧ (add_weights mean g).t = g.t := by
  have h := foldl_add_split_frame (accumulate g.kmer_table g.color_table) mean
    { g with kmer_table := [], color_table := [] }
  exact ⟨h.1, h.2.1, h.2.2⟩

theorem canonSplit_proper (c : color_t n) (h : c ≠ ∅ ∧ c ≠ Finset.univ) :
    canonSplit c ≠ ∅ ∧ canonSplit c ≠ Finset.univ := by
  unfold canonSplit
  by_cases hn : 0 < n
  · rw [dif_pos hn]
    by_cases hc : (⟨0, hn⟩ : Fin n) ∈ c
    · rw [if_pos hc]
      constructor
      · rw [Ne, Finset.compl_eq_empty_iff]; exact h.2
      · rw [Ne, Finset.compl_eq_univ_iff]; exact h.1
    · rw [if_neg hc]; exact h
  · rw [dif_neg hn]; exact h

theorem ctIncr_keys (c : color_t n) (ct : List (color_t n × ℕ × ℕ))
    (hc : c ≠ ∅ ∧ c ≠ Finset.univ)
    (hct : ∀ e ∈ ct, e.1 ≠ ∅ ∧ e.1 ≠ Finset.univ) :
    ∀ e ∈ ctIncr c ct, e.1 ≠ ∅ ∧ e.1 ≠ Finset.univ := by
  intro e he
  unfold ctIncr at he
  by_cases hb : ct.any (fun e => decide (e.1 = canonSplit c)) = true
  · rw [if_pos hb] at he
    rcases List.mem_map.mp he with ⟨a, ha, hae⟩
    by_cases hk : a.1 = canonSplit c
    · rw [if_pos hk] at hae
      rw [← hae]
      exact hct a ha
    · rw [if_neg hk] at hae
      rw [← hae]
      exact hct a ha
  · rw [if_neg hb] at he
    rcases List.mem_append.mp he with h1 | h1
    · exact hct e h1
    · rw [List.mem_singleton.mp h1]
      exact canonSplit_proper c hc

theorem accumulate_keys (tab : List (ℕ × color_t n))
    (ct : List (color_t n × ℕ × ℕ))
    (hct : ∀ e ∈ ct, e.1 ≠ ∅ ∧ e.1 ≠ Finset.univ) :
    ∀ e ∈ accumulate tab ct, e.1 ≠ ∅ ∧ e.1 ≠ Finset.univ := by
  induction tab generalizing ct with
  | nil => exact hct
  | cons p rest ih =>
    simp only [accumulate, List.foldl_cons]
    by_cases hp : p.2 = ∅ ∨ p.2 = Finset.univ
    · rw [if_pos hp]; exact ih ct hct
    · rw [if_neg hp]
      push_neg at hp
      exact ih (ctIncr p.2 ct) (ctIncr_keys p.2 ct hp hct)

theorem addSplitL_members (t : ℕ) (p q : ℚ × color_t n) (l : List (ℚ × color_t n))
    (hq : q ∈ addSplitL t p l) : q = p ∨ q ∈ l := by
  rw [addSplitL_eq] at hq
  have h2 : q ∈ insert_desc p l := by
    by_cases hc : t ≠ 0 ∧ t < (insert_desc p l).length
    · rw [if_pos hc] at hq
      exact (List.dropLast_sublist _).mem hq
    · rwa [if_neg hc] at hq
  exact List.mem_cons.mp ((insert_desc_perm p l).mem_iff.mp h2)

theorem foldl_add_split_proper (ct : List (color_t n × ℕ × ℕ))
    (mean : ℕ → ℕ → ℚ) (g : graph n)
    (hg : ∀ p ∈ g.split_list, p.2 ≠ ∅ ∧ p.2 ≠ Finset.univ)
    (hct : ∀ e ∈ ct, e.1 ≠ ∅ ∧ e.1 ≠ Finset.univ) :
    ∀ p ∈ (ct.foldl (fun s e => add_split (mean e.2.1 e.2.2) e.1 s) g).split_list,
      p.2 ≠ ∅ ∧ p.2 ≠ Finset.univ := by
  induction ct generalizing g with
  | nil => exact hg
  | cons e rest ih =>
    simp only [List.foldl_cons]
    refine ih (add_split (mean e.2.1 e.2.2) e.1 g) ?_
      (fun a ha => hct a (List.mem_cons_of_mem _ ha))
    intro p hp
    rcases addSplitL_members g.t (mean e.2.1 e.2.2, e.1) p g.split_list hp with h1 | h1
    · rw [h1]; exact hct e (by simp)
    · exact hg p h1

/-- C3: `add_weights` skips every k-mer index entry whose color-set is
empty or full — no such entry reaches a weight-accumulator counter, so
every key of the accumulator, and hence every split `add_weights` ever
inserts into the split list, is non-empty and a proper subset of the
taxon set. -/
theorem add_weights_proper (mean : ℕ → ℕ → ℚ) (g : graph n)
    (h1 : ∀ p ∈ g.split_list, p.2 ≠ ∅ ∧ p.2 ≠ Finset.univ)
    (h2 : g.color_table = []) :
    (∀ e ∈ accumulate g.kmer_table g.color_table, e.1 ≠ ∅ ∧ e.1 ≠ Finset.univ)
    ∧ ∀ p ∈ (add_weights mean g).split_list, p.2 ≠ ∅ ∧ p.2 ≠ Finset.univ := by
  have hacc : ∀ e ∈ accumulate g.kmer_table g.color_table,
      e.1 ≠ ∅ ∧ e.1 ≠ Finset.univ := by
    refine accumulate_keys g.kmer_table g.color_table ?_
    rw [h2]; simp
  exact ⟨hacc, foldl_add_split_proper _ mean _ h1 hacc⟩

/-- Witness for C3 at a concrete input: the state `gW` has hypotheses
dischargeable by evaluation, and the single split `add_weights` puts in
the split list — the canonical form `{1}` of `{0}` — is proper. -/
theorem add_weights_proper_witness :
    ({1} : color_t 2) ≠ ∅ ∧ ({1} : color_t 2) ≠ Finset.univ :=
  (add_weights_proper meanSum gW (by simp [gW]) rfl).2
    ((1 : ℚ), ({1} : color_t 2)) (by decide)

/-- C10: the occurrence counters of the weight accumulator are `uint32_t`
values (`array<uint32_t,2>` in `graph.h`): iterating the increment
`bump32` wraps modulo `2 ^ 32` — after `k` supporting k-mers a counter
holds `k % 2 ^ 32`, incrementing `2 ^ 32 - 1` overflows to `0` — and
every counter held in the accumulator, as passed to the weight
function, is reduced below `2 ^ 32`. -/
theorem counters_mod32 :
    (∀ k : ℕ, bump32^[k] 0 = k % 2 ^ 32)
    ∧ bump32 (2 ^ 32 - 1) = 0
    ∧ ∀ (tab : List (ℕ × color_t n)) (e : color_t n × ℕ × ℕ),
        e ∈ accumulate tab [] → e.2.1 < 2 ^ 32 ∧ e.2.2 < 2 ^ 32 := by
  refine ⟨?_, ?_, ?_⟩
  · intro k
    induction k with
    | zero => simp
    | succ k ih =>
      rw [Function.iterate_succ_apply', ih, bump32]
      conv_rhs => rw [Nat.add_mod]
      norm_num
  · rw [bump32]
    norm_num
  · have hstep : ∀ (c : color_t n) (ct : List (color_t n × ℕ × ℕ)),
        (∀ e ∈ ct, e.2.1 < 2 ^ 32 ∧ e.2.2 < 2 ^ 32) →
        ∀ e ∈ ctIncr c ct, e.2.1 < 2 ^ 32 ∧ e.2.2 < 2 ^ 32 := by
      intro c ct hct e he
      have hb : ∀ x : ℕ, bump32 x < 2 ^ 32 := fun x => Nat.mod_lt _ (by norm_num)
      unfold ctIncr at he
      by_cases hany : ct.any (fun e => decide (e.1 = canonSplit c)) = true
      · rw [if_pos hany] at he
        rcases List.mem_map.mp he with ⟨a, ha, hae⟩
        by_cases hk : a.1 = canonSplit c
        · rw [if_pos hk] at hae
          by_cases hr : canonSplit c = c
          · rw [if_pos hr] at hae
            rw [← hae]
            exact ⟨hb _, (hct a ha).2⟩
          · rw [if_neg hr] at hae
            rw [← hae]
            exact ⟨(hct a ha).1, hb _⟩
        · rw [if_neg hk] at hae
          rw [← hae]; exact hct a ha
      · rw [if_neg hany] at he
        rcases List.mem_append.mp he with h1 | h1
        · exact hct e h1
        · rw [List.mem_singleton.mp h1]
          by_cases hr : canonSplit c = c
          · rw [if_pos hr]; norm_num
          · rw [if_neg hr]; norm_num
    intro tab
    suffices h : ∀ ct : List (color_t n × ℕ × ℕ),
        (∀ e ∈ ct, e.2.1 < 2 ^ 32 ∧ e.2.2 < 2 ^ 32) →
        ∀ e ∈ accumulate tab ct, e.2.1 < 2 ^ 32 ∧ e.2.2 < 2 ^ 32 by
      exact fun e he => h [] (by simp) e he
    induction tab with
    | nil => intro ct hct; exact hct
    | cons p rest ih =>
      intro ct hct
      simp only [accumulate, List.foldl_cons]
      by_cases hp : p.2 = ∅ ∨ p.2 = Finset.univ
      · rw [if_pos hp]; exact ih ct hct
      · rw [if_neg hp]; exact ih (ctIncr p.2 ct) (hstep p.2 ct hct)

/-- Witness for C10 at a concrete input: the accumulator entry produced
from the single proper index entry of `gW` carries counters `0` and
`1`, both below `2 ^ 32`. -/
theorem counters_mod32_witness : (0 : ℕ) < 2 ^ 32 ∧ (1 : ℕ) < 2 ^ 32 :=
  (counters_mod32 (n := 2)).2.2 [(2, {0})] (({1} : color_t 2), 0, 1) (by decide)

theorem tkeys_tinsert (key : ℕ) (c : Fin n) (tab : List (ℕ × color_t n)) :
    tkeys (tinsert key c tab) = insert key (tkeys tab) := by
  unfold tinsert
  by_cases hb : tab.any (fun e => decide (e.1 = key)) = true
  · rw [if_pos hb]
    have hk : key ∈ tkeys tab := by
      rcases List.any_eq_true.mp hb with ⟨e, he, hke⟩
      simp only [decide_eq_true_eq] at hke
      simp only [tkeys, List.mem_toFinset, List.mem_map]
      exact ⟨e, he, hke⟩
    have hmap : (tab.map (fun e => if e.1 = key then (e.1, insert c e.2) else e)).map
        Prod.fst = tab.map Prod.fst := by
      rw [List.map_map]
      refine List.map_congr_left ?_
      intro e _
      by_cases hke : e.1 = key
      · simp [hke]
      · simp [hke]
    rw [tkeys, hmap, ← tkeys, Finset.insert_eq_self.mpr hk]
  · rw [if_neg hb]
    simp only [tkeys, List.map_append, List.toFinset_append]
    ext x
    simp only [Finset.mem_union, List.mem_toFinset, Finset.mem_insert]
    simp [List.mem_toFinset]
    tauto

theorem tkeys_insert_run (ks : List ℕ) (c : Fin n) (tab : List (ℕ × color_t n)) :
    tkeys (ks.foldl (fun tab k => tinsert k c tab) tab) = tkeys tab ∪ ks.toFinset := by
  induction ks generalizing tab with
  | nil => simp
  | cons k rest ih =>
    simp only [List.foldl_cons]
    rw [ih (tinsert k c tab), tkeys_tinsert]
    ext x
    simp only [Finset.mem_union, Finset.mem_insert, List.toFinset_cons, List.mem_toFinset]
    tauto

theorem tkeys_add_kmers (k : ℕ) (s : List Base) (c : Fin n) (rev : Bool) (g : graph n) :
    tkeys ((add_kmers k s c rev g).kmer_table) =
      tkeys g.kmer_table ∪ ((windows k s).map (canon rev)).toFinset := by
  rw [add_kmers]
  rw [show (windows k s).foldl (fun tab w => tinsert (canon rev w) c tab) g.kmer_table
      = ((windows k s).map (canon rev)).foldl (fun tab key => tinsert key c tab)
        g.kmer_table by rw [List.foldl_map]]
  exact tkeys_insert_run _ c _

theorem mem_windows {α : Type} (k : ℕ) (s w : List α) :
    w ∈ windows k s ↔ w.length = k ∧ w <:+: s := by
  unfold windows
  constructor
  · intro h
    rcases List.mem_map.mp h with ⟨i, hi, rfl⟩
    rw [List.mem_range] at hi
    constructor
    · rw [List.length_take, List.length_drop]
      omega
    · have hpre := List.take_prefix k (s.drop i)
      exact hpre.isInfix.trans (s.drop_suffix i).isInfix
  · rintro ⟨hl, t1, t2, rfl⟩
    refine List.mem_map.mpr ⟨t1.length, ?_, ?_⟩
    · rw [List.mem_range]
      simp only [List.length_append]
      omega
    · rw [List.append_assoc, List.drop_left, ← hl, List.take_left]

theorem base_comp_comp (b : Base) : base_comp (base_comp b) = b := by
  cases b <;> rfl

theorem revComp_revComp (w : List Base) : revComp (revComp w) = w := by
  simp only [revComp, List.map_reverse, List.reverse_reverse, List.map_map]
  have h : base_comp ∘ base_comp = id := funext base_comp_comp
  rw [h, List.map_id]

theorem revComp_append (a b : List Base) :
    revComp (a ++ b) = revComp b ++ revComp a := by
  simp [revComp]

theorem revComp_infix_mono (w s : List Base) (h : w <:+: s) :
    revComp w <:+: revComp s := by
  rcases h with ⟨t1, t2, rfl⟩
  refine ⟨revComp t2, revComp t1, ?_⟩
  rw [revComp_append, revComp_append, List.append_assoc]

theorem canon_revComp (w : List Base) : canon true (revComp w) = canon true w := by
  simp only [canon, if_pos rfl, revComp_revComp]
  exact min_comm _ _

theorem kset_revComp (k : ℕ) (s : List Base) :
    kset true k (revComp s) = kset true k s := by
  ext x
  simp only [kset, List.mem_toFinset, List.mem_map, mem_windows]
  constructor
  · rintro ⟨w, ⟨hl, hi⟩, rfl⟩
    refine ⟨revComp w, ⟨by simp [revComp, hl], ?_⟩, canon_revComp w⟩
    have h2 := revComp_infix_mono w (revComp s) hi
    rwa [revComp_revComp] at h2
  · rintro ⟨w, ⟨hl, hi⟩, rfl⟩
    exact ⟨revComp w, ⟨by simp [revComp, hl], revComp_infix_mono w s hi⟩,
      canon_revComp w⟩

/-- C5: with reverse-complement merging enabled, ingesting a sequence
and then its reverse complement leaves exactly the canonical key set of
ingesting the sequence alone, and ingesting the reverse complement
alone gives the same key set as ingesting the sequence alone — the
k-mer index coincides up to the accumulated color bits. -/
theorem add_kmers_revcomp (k : ℕ) (c1 c2 : Fin n) (s : List Base) (g : graph n) :
    tkeys ((add_kmers k (revComp s) c2 true (add_kmers k s c1 true g)).kmer_table)
      = tkeys ((add_kmers k s c1 true g).kmer_table)
    ∧ tkeys ((add_kmers k (revComp s) c2 true g).kmer_table)
      = tkeys ((add_kmers k s c1 true g).kmer_table) := by
  have h1 := tkeys_add_kmers k s c1 true g
  have h2 := tkeys_add_kmers k (revComp s) c2 true (add_kmers k s c1 true g)
  have h3 := tkeys_add_kmers k (revComp s) c2 true g
  have hk : ((windows k (revComp s)).map (canon true)).toFinset =
      ((windows k s).map (canon true)).toFinset := kset_revComp k s
  constructor
  · rw [h2, hk, h1]
    rw [Finset.union_assoc, Finset.union_self]
  · rw [h3, hk, h1]

theorem one_le_iupac_calc (w : List IBase) : 1 ≤ iupac_calc w := by
  induction w with
  | nil => simp [iupac_calc]
  | cons x rest ih =>
    have hx : 1 ≤ (iupac x).length := by cases x <;> simp [iupac]
    calc 1 = 1 * 1 := by norm_num
      _ ≤ (iupac x).length * iupac_calc rest := Nat.mul_le_mul hx ih
      _ = iupac_calc (x :: rest) := by simp [iupac_calc]

theorem expand_run_keys (exps : List (List Base)) (c : Fin n) (rev : Bool)
    (tab : List (ℕ × color_t n)) :
    tkeys (exps.foldl (fun tb u => tinsert (canon rev u) c tb) tab) =
      tkeys tab ∪ (exps.map (canon rev)).toFinset := by
  rw [show exps.foldl (fun tb u => tinsert (canon rev u) c tb) tab
      = (exps.map (canon rev)).foldl (fun tb key => tinsert key c tb) tab by
    rw [List.foldl_map]]
  exact tkeys_insert_run _ c _

theorem iupac_fold_keys (ws : List (List IBase)) (c : Fin n) (rev : Bool) (cap : ℕ)
    (tab : List (ℕ × color_t n)) :
    tkeys (ws.foldl (iupac_step c rev cap) tab) =
      tkeys tab ∪ iunion ((ws.filter
          (fun w => !w.any isAmbig || decide (iupac_calc w ≤ cap))).map
          (fun w => ((iupac_expand w).map (canon rev)).toFinset)) := by
  induction ws generalizing tab with
  | nil => simp [iunion]
  | cons w rest ih =>
    simp only [List.foldl_cons, iupac_step]
    by_cases ha : w.any isAmbig = true
    · by_cases hc : iupac_calc w ≤ cap
      · rw [if_pos ha, if_pos hc, ih, expand_run_keys]
        have hf : (w :: rest).filter
            (fun w => !w.any isAmbig || decide (iupac_calc w ≤ cap)) =
            w :: rest.filter (fun w => !w.any isAmbig || decide (iupac_calc w ≤ cap)) := by
          rw [List.filter_cons_of_pos]
          simp [ha, hc]
        rw [hf]
        simp only [List.map_cons, iunion, List.foldr_cons]
        rw [show List.foldr (fun a b => a ∪ b) ∅ (List.map
            (fun w => ((iupac_expand w).map (canon rev)).toFinset) (List.filter
            (fun w => !w.any isAmbig || decide (iupac_calc w ≤ cap)) rest)) =
          iunion ((rest.filter (fun w => !w.any isAmbig ||
            decide (iupac_calc w ≤ cap))).map
            (fun w => ((iupac_expand w).map (canon rev)).toFinset)) from rfl]
        ext x
        simp only [Finset.mem_union]
        tauto
      · rw [if_pos ha, if_neg hc, ih]
        have hf : (w :: rest).filter
            (fun w => !w.any isAmbig || decide (iupac_calc w ≤ cap)) =
            rest.filter (fun w => !w.any isAmbig || decide (iupac_calc w ≤ cap)) := by
          rw [List.filter_cons_of_neg]
          simp [ha, hc]
        rw [hf]
    · rw [if_neg ha, ih, expand_run_keys]
      have hf : (w :: rest).filter
          (fun w => !w.any isAmbig || decide (iupac_calc w ≤ cap)) =
          w :: rest.filter (fun w => !w.any isAmbig || decide (iupac_calc w ≤ cap)) := by
        rw [List.filter_cons_of_pos]
        simp [ha]
      rw [hf]
      simp only [List.map_cons, iunion, List.foldr_cons]
      ext x
      simp only [Finset.mem_union]
      tauto

/-- C6: the IUPAC-capable `add_kmers` contributes to the key set only
from windows that are unambiguous or whose `iupac_calc` multiplicity is
within the cap — a window over the cap is skipped and contributes
nothing — and with cap `0` only fully unambiguous windows contribute,
so every window touching an ambiguous position leaves no entry. -/
theorem add_kmers_iupac_cap (k : ℕ) (s : List IBase) (c : Fin n) (rev : Bool)
    (cap : ℕ) (g : graph n) :
    tkeys ((add_kmers_iupac k s c rev cap g).kmer_table)
      = tkeys g.kmer_table ∪ iunion (((windows k s).filter
          (fun w => !w.any isAmbig || decide (iupac_calc w ≤ cap))).map
          (fun w => ((iupac_expand w).map (canon rev)).toFinset))
    ∧ tkeys ((add_kmers_iupac k s c rev 0 g).kmer_table)
      = tkeys g.kmer_table ∪ iunion (((windows k s).filter
          (fun w => !w.any isAmbig)).map
          (fun w => ((iupac_expand w).map (canon rev)).toFinset)) := by
  constructor
  · exact iupac_fold_keys (windows k s) c rev cap g.kmer_table
  · rw [show (add_kmers_iupac k s c rev 0 g).kmer_table
        = (windows k s).foldl (iupac_step c rev 0) g.kmer_table from rfl]
    rw [iupac_fold_keys (windows k s) c rev 0 g.kmer_table]
    have hp : ∀ w ∈ windows k s,
        (!w.any isAmbig || decide (iupac_calc w ≤ 0)) = !w.any isAmbig := by
      intro w _
      have h1 : ¬ iupac_calc w ≤ 0 := by
        have := one_le_iupac_calc w
        omega
      simp [h1]
    rw [List.filter_congr hp]

theorem mem_childUnion (cs : List (set n)) (x : Fin n) :
    x ∈ childUnion cs ↔ ∃ c ∈ cs, x ∈ taxa c := by
  induction cs with
  | nil => simp [childUnion]
  | cons c rest ih =>
    simp only [childUnion, List.map_cons, List.foldr_cons, Finset.mem_union]
    rw [show (rest.map taxa).foldr (fun a b => a ∪ b) ∅ = childUnion rest from rfl]
    rw [ih]
    simp

theorem childUnion_cons (c : set n) (cs : List (set n)) :
    childUnion (c :: cs) = taxa c ∪ childUnion cs := rfl

theorem childUnion_filter_split (p : set n → Bool) (cs : List (set n)) :
    childUnion (cs.filter p) ∪ childUnion (cs.filter (fun c => !p c)) =
      childUnion cs := by
  ext x
  simp only [Finset.mem_union, mem_childUnion, List.mem_filter]
  constructor
  · rintro (⟨c, ⟨hc, _⟩, hx⟩ | ⟨c, ⟨hc, _⟩, hx⟩) <;> exact ⟨c, hc, hx⟩
  · rintro ⟨c, hc, hx⟩
    by_cases hp : p c = true
    · exact Or.inl ⟨c, ⟨hc, hp⟩, hx⟩
    · exact Or.inr ⟨c, ⟨hc, by simp [hp]⟩, hx⟩

theorem childUnion_inter_empty (cs : List (set n)) (x : color_t n)
    (h : ∀ a ∈ cs.map taxa, a ∩ x = ∅) : childUnion cs ∩ x = ∅ := by
  induction cs with
  | nil => simp [childUnion]
  | cons c rest ih =>
    rw [childUnion_cons, Finset.union_inter_distrib_right]
    rw [h (taxa c) (by simp), ih (fun a ha => h a (by simp [ha]))]
    simp

theorem refineList_map_taxa (sp : color_t n) (cs : List (set n))
    (IH : ∀ c ∈ cs, partOK c →
      partOK (refine_tree sp c) ∧ taxa (refine_tree sp c) = taxa c)
    (hall : ∀ c ∈ cs, partOK c) :
    (refineList sp cs).map taxa = cs.map taxa
    ∧ ∀ c ∈ refineList sp cs, partOK c := by
  induction cs with
  | nil => simp [refineList]
  | cons c rest ih =>
    have hrest := ih (fun a ha hOK => IH a (by simp [ha]) hOK)
      (fun a ha => hall a (by simp [ha]))
    have hc := hall c (by simp)
    have hhead : taxa (if sp ⊂ taxa c then refine_tree sp c else c) = taxa c
        ∧ partOK (if sp ⊂ taxa c then refine_tree sp c else c) := by
      by_cases hsub : sp ⊂ taxa c
      · rw [if_pos hsub]
        exact ⟨(IH c (by simp) hc).2, (IH c (by simp) hc).1⟩
      · rw [if_neg hsub]
        exact ⟨rfl, hc⟩
    constructor
    · simp only [refineList, List.map_cons]
      rw [hhead.1, hrest.1]
    · intro a ha
      rcases List.mem_cons.mp ha with rfl | ha
      · exact hhead.2
      · exact hrest.2 a ha

theorem taxa_disjoint_symm :
    Symmetric (fun a b : color_t n => a ∩ b = ∅) := by
  intro a b h
  rw [Finset.inter_comm]
  exact h

theorem group_node_partOK (sp tx : color_t n) (w : ℚ) (cs : List (set n))
    (hu : childUnion cs = tx)
    (hd : (cs.map taxa).Pairwise fun a b => a ∩ b = ∅)
    (hall : ∀ c ∈ cs, partOK c)
    (hlen : 2 ≤ (cs.filter (fun c => decide (taxa c ⊆ sp))).length) :
    partOK (set.node tx w
      (set.node (childUnion (cs.filter (fun c => decide (taxa c ⊆ sp)))) 0
        (cs.filter (fun c => decide (taxa c ⊆ sp))) ::
      cs.filter (fun c => !decide (taxa c ⊆ sp)))) := by
  have hgl : ∀ a ∈ cs.filter (fun c => decide (taxa c ⊆ sp)), a ∈ cs :=
    fun a ha => (List.mem_filter.mp ha).1
  have hrl : ∀ a ∈ cs.filter (fun c => !decide (taxa c ⊆ sp)), a ∈ cs :=
    fun a ha => (List.mem_filter.mp ha).1
  have hgsub : ∀ a ∈ cs.filter (fun c => decide (taxa c ⊆ sp)), taxa a ⊆ sp := by
    intro a ha
    have h2 := (List.mem_filter.mp ha).2
    simpa using h2
  have hrsub : ∀ a ∈ cs.filter (fun c => !decide (taxa c ⊆ sp)), ¬ taxa a ⊆ sp := by
    intro a ha
    have h2 := (List.mem_filter.mp ha).2
    simpa using h2
  have hforall := hd.forall taxa_disjoint_symm
  have hcross : ∀ a ∈ cs.filter (fun c => decide (taxa c ⊆ sp)),
      ∀ b ∈ cs.filter (fun c => !decide (taxa c ⊆ sp)), taxa a ∩ taxa b = ∅ := by
    intro a ha b hb
    have hne2 : taxa a ≠ taxa b := by
      intro hcon
      exact hrsub b hb (hcon ▸ hgsub a ha)
    exact hforall (List.mem_map_of_mem taxa (hgl a ha))
      (List.mem_map_of_mem taxa (hrl b hb)) hne2
  have hgrpne : cs.filter (fun c => decide (taxa c ⊆ sp)) ≠ [] := by
    intro hcon
    rw [hcon] at hlen
    simp at hlen
  refine partOK.internal tx w _ (by simp) ?_ ?_ ?_
  · rw [childUnion_cons,
      show taxa (set.node (childUnion (cs.filter (fun c => decide (taxa c ⊆ sp)))) 0
          (cs.filter (fun c => decide (taxa c ⊆ sp)))) =
        childUnion (cs.filter (fun c => decide (taxa c ⊆ sp))) from rfl,
      childUnion_filter_split (fun c => decide (taxa c ⊆ sp)) cs]
    exact hu
  · simp only [List.map_cons]
    refine List.pairwise_cons.mpr ⟨?_, hd.sublist ((List.filter_sublist cs).map taxa)⟩
    intro b hb
    rcases List.mem_map.mp hb with ⟨rb, hrb, rfl⟩
    rw [show taxa (set.node (childUnion (cs.filter (fun c => decide (taxa c ⊆ sp)))) 0
        (cs.filter (fun c => decide (taxa c ⊆ sp)))) =
      childUnion (cs.filter (fun c => decide (taxa c ⊆ sp))) from rfl]
    refine childUnion_inter_empty _ _ ?_
    intro a ha
    rcases List.mem_map.mp ha with ⟨ga, hga, rfl⟩
    exact hcross ga hga rb hrb
  · intro c hc
    rcases List.mem_cons.mp hc with rfl | hc
    · exact partOK.internal _ 0 _ hgrpne rfl
        (hd.sublist ((List.filter_sublist cs).map taxa))
        (fun a ha => hall a (hgl a ha))
    · exact hall c (hrl c hc)

theorem refine_tree_preserve (sp : color_t n) (t : set n) (hOK : partOK t) :
    partOK (refine_tree sp t) ∧ taxa (refine_tree sp t) = taxa t := by
  induction hOK with
  | leaf tx w =>
    rw [refine_tree]
    simp only [List.any_nil, List.filter_nil, List.length_nil]
    rw [if_neg (by simp), if_neg (by simp), if_neg (by omega)]
    exact ⟨partOK.leaf tx w, rfl⟩
  | internal tx w cs hne hu hd hall ih =>
    rw [refine_tree]
    by_cases hA : cs.any (fun c => decide (sp ⊂ taxa c)) = true
    · rw [if_pos hA]
      have hl := refineList_map_taxa sp cs (fun c hc _ => ih c hc) hall
      have hne2 : refineList sp cs ≠ [] := by
        intro hcon
        have : (refineList sp cs).map taxa = [] := by rw [hcon]; rfl
        rw [hl.1] at this
        exact hne (List.map_eq_nil_iff.mp this)
      refine ⟨partOK.internal tx w _ hne2 ?_ ?_ hl.2, rfl⟩
      · have : childUnion (refineList sp cs) = childUnion cs := by
          unfold childUnion
          rw [hl.1]
        rw [this, hu]
      · rw [hl.1]; exact hd
    · rw [if_neg hA]
      by_cases hB : cs.any (fun c => decide ((taxa c ∩ sp).Nonempty ∧
          ¬ taxa c ⊆ sp ∧ ¬ sp ⊆ taxa c)) = true
      · rw [if_pos hB]
        exact ⟨partOK.internal tx w cs hne hu hd hall, rfl⟩
      · rw [if_neg hB]
        by_cases hC : 2 ≤ (cs.filter (fun c => decide (taxa c ⊆ sp))).length ∧
            (cs.filter (fun c => decide (taxa c ⊆ sp))).length < cs.length
        · rw [if_pos hC]
          exact ⟨group_node_partOK sp tx w cs hu hd hall hC.1, rfl⟩
        · rw [if_neg hC]
          exact ⟨partOK.internal tx w cs hne hu hd hall, rfl⟩

@[simp] theorem taxa_node (tx : color_t n) (w : ℚ) (cs : List (set n)) :
    taxa (set.node tx w cs) = tx := rfl

theorem leafUnion_eq_childUnion (cs : List (set n))
    (h : ∀ c ∈ cs, leafTaxa c = taxa c) : leafUnion cs = childUnion cs := by
  induction cs with
  | nil => rfl
  | cons c rest ih =>
    rw [leafUnion, childUnion_cons, h c (by simp),
      ih (fun a ha => h a (by simp [ha]))]

theorem partOK_leafTaxa (t : set n) (h : partOK t) : leafTaxa t = taxa t := by
  induction h with
  | leaf tx w => rw [leafTaxa, taxa_node]
  | internal tx w cs hne hu hd hall ih =>
    cases cs with
    | nil => exact absurd rfl hne
    | cons c rest =>
      rw [leafTaxa, taxa_node]
      rw [leafUnion_eq_childUnion (c :: rest) ih]
      exact hu

theorem root_partOK :
    partOK (set.node (Finset.univ : color_t n) 0
      ((List.finRange n).map (fun i => set.node {i} 0 []))) := by
  cases hn : List.finRange n with
  | nil =>
    have hu : (Finset.univ : color_t n) = ∅ := by
      ext x
      have h2 : x ∈ List.finRange n := List.mem_finRange x
      rw [hn] at h2
      simp at h2
    rw [hu]
    exact partOK.leaf ∅ 0
  | cons i0 irest =>
    rw [← hn]
    refine partOK.internal _ 0 _ ?_ ?_ ?_ ?_
    · rw [hn]; simp
    · ext x
      rw [mem_childUnion]
      simp only [List.mem_map, Finset.mem_univ, iff_true]
      exact ⟨set.node {x} 0 [], ⟨x, List.mem_finRange x, rfl⟩, by simp⟩
    · rw [List.map_map]
      have h2 : (taxa ∘ fun i : Fin n => set.node ({i} : color_t n) 0 []) =
          fun i : Fin n => ({i} : color_t n) := by
        funext i
        simp
      rw [h2, List.pairwise_map]
      refine (List.nodup_finRange n).imp ?_
      intro a b hab
      ext x
      simp only [Finset.mem_inter, Finset.mem_singleton, Finset.not_mem_empty,
        iff_false, not_and]
      intro h3 h4
      exact hab (h3 ▸ h4 ▸ rfl)
    · intro c hc
      rcases List.mem_map.mp hc with ⟨i, _, rfl⟩
      exact partOK.leaf {i} 0

theorem build_tree_aux (color_set : List (color_t n)) (t : set n) (h : partOK t) :
    partOK (color_set.foldl (fun t sp => refine_tree sp t) t)
    ∧ taxa (color_set.foldl (fun t sp => refine_tree sp t) t) = taxa t := by
  induction color_set generalizing t with
  | nil => exact ⟨h, rfl⟩
  | cons sp rest ih =>
    simp only [List.foldl_cons]
    have h1 := refine_tree_preserve sp t h
    have h2 := ih (refine_tree sp t) h1.1
    exact ⟨h2.1, h2.2.trans h1.2⟩

/-- C4: the tree `build_tree` produces from the strict filter's accepted
set satisfies the partition invariant — at every internal node the
children's taxa are pairwise disjoint and their union equals the node's
taxa — its root holds the full taxon set, and the union of its leaves'
taxa is exactly the full taxon set. -/
theorem build_tree_partition (splits : List (ℚ × color_t n)) :
    partOK (build_tree (filter_strict splits))
    ∧ taxa (build_tree (filter_strict splits)) = Finset.univ
    ∧ leafTaxa (build_tree (filter_strict splits)) = Finset.univ := by
  rw [build_tree]
  have h := build_tree_aux (filter_strict splits)
    (set.node Finset.univ 0 ((List.finRange n).map (fun i => set.node {i} 0 [])))
    root_partOK
  refine ⟨h.1, ?_, ?_⟩
  · rw [h.2, taxa_node]
  · rw [partOK_leafTaxa _ h.1, h.2, taxa_node]

end Sans
